import Mathlib

/-!
Shallow embedding of `matGroups.py` (femfat-matGroups) and verification of its
specification claims.

The embedding covers the range-compression generator `ranges`, the token
renderer `hmRanges`, and the `.bdf` serializer `bdfExport`.  The three nested
`while` loops of `ranges` are modelled as structurally recursive functions over
an explicit fuel parameter, returning `none` when the fuel runs out;
`rangesFuel_total` proves that the fuel supplied by `ranges` always suffices,
so `ranges` computes exactly what the source's terminating loops compute.
-/

namespace MatGroups

/-- Element access `sortedInts[i]` of the source.  Every access the source
performs is in bounds; out-of-range indices default to 0. -/
def nth (s : List Int) (i : Nat) : Int := s.getD i 0

/-- The innermost loop of `ranges`:
`while sortedInts[mid] - sortedInts[upper] > mid - upper: boundary = mid;
mid = (upper + boundary)//2`.  The state is `boundary` (with
`mid = (upper + boundary)//2` recomputed from it); the function returns the
final value of `boundary`. -/
def shrinkF (s : List Int) (upper : Nat) : Nat → Nat → Option Nat
  | _, 0 => none
  | boundary, fuel + 1 =>
    let mid := (upper + boundary) / 2
    if nth s mid - nth s upper > (mid : Int) - (upper : Int) then
      shrinkF s upper mid fuel
    else
      some boundary

/-- The middle loop of `ranges`:
`while boundary > upper + 1: mid = (upper+boundary)//2; <inner loop>;
upper = mid`.  Returns the final value of `upper`. -/
def bsearchF (s : List Int) : Nat → Nat → Nat → Option Nat
  | _, _, 0 => none
  | upper, boundary, fuel + 1 =>
    if boundary > upper + 1 then
      match shrinkF s upper boundary (fuel + 1) with
      | some b => bsearchF s ((upper + b) / 2) b fuel
      | none => none
    else
      some upper

/-- The outer loop of `ranges`: starting from index `lower`, find the run end
`upper` by the binary search, yield `(sortedInts[lower], sortedInts[upper])`
and continue from `upper + 1`. -/
def rangesFuel (s : List Int) : Nat → Nat → Option (List (Int × Int))
  | _, 0 => none
  | lower, fuel + 1 =>
    if lower < s.length then
      match bsearchF s lower s.length (fuel + 1) with
      | some upper =>
        match rangesFuel s (upper + 1) fuel with
        | some rest => some ((nth s lower, nth s upper) :: rest)
        | none => none
      | none => none
    else
      some []

/-- The source's `sorted(intList)`: sorting over a linear order, so any
correct sort yields the same list. -/
def sortInts (l : List Int) : List Int := List.insertionSort (· ≤ ·) l

/-- The source's `ranges(intList)` (matGroups.py lines 48-67): the list of
`(lower, upper)` pairs yielded by the generator.  The fuel `length + 1` is
sufficient, as proved by `rangesFuel_total`. -/
def ranges (intList : List Int) : List (Int × Int) :=
  (rangesFuel (sortInts intList) 0 ((sortInts intList).length + 1)).getD []

/-- A display token yielded by `hmRanges`: either a plain integer or a
composite `"<lower> THRU <upper>"` string. -/
inductive Token where
  | int : Int → Token
  | thru : Int → Int → Token
deriving DecidableEq

/-- The text the token contributes to the output line: Python `str` of an
integer, or the `'%d THRU %d'` format. -/
def Token.render : Token → String
  | Token.int n => n.repr
  | Token.thru lower upper => lower.repr ++ " THRU " ++ upper.repr

/-- The body of `hmRanges` (matGroups.py lines 70-85): one loop iteration per
`(lower, upper)` pair produced by `ranges`. -/
def renderPairs : List (Int × Int) → List Token
  | [] => []
  | (lower, upper) :: rest =>
    (if lower = upper then [Token.int lower]
     else if lower + 1 = upper then [Token.int lower, Token.int upper]
     else [Token.thru lower upper]) ++ renderPairs rest

/-- The source's `hmRanges(intList)`: the token list for one set. -/
def hmRanges (intList : List Int) : List Token := renderPairs (ranges intList)

/-- Concatenation of the lists produced for each element (the flattening a
Python generator over a loop performs). -/
def catMap {α β : Type} (f : α → List β) : List α → List β
  | [] => []
  | a :: t => f a ++ catMap f t

/-- All integers from `lo` to `hi` inclusive: the spec's reading of a THRU
token when parsing rendered output back into integers. -/
def intsFromTo (lo hi : Int) : List Int :=
  (List.range (hi + 1 - lo).toNat).map fun (k : Nat) => lo + (k : Int)

/-- The spec's expansion of one display token back into the integers it
denotes (spec section 8, idempotence of display-token rendering). -/
def expandToken : Token → List Int
  | Token.int n => [n]
  | Token.thru lower upper => intsFromTo lower upper

/-- Expansion of a whole rendered token list back into integers. -/
def expandAll (ts : List Token) : List Int := catMap expandToken ts

/-- Number of maximal contiguous runs of a sorted duplicate-free list, per the
spec's minimality property: a new run starts at the head and after every gap. -/
def countRuns : List Int → Nat
  | [] => 0
  | [_] => 1
  | a :: b :: t => (if b = a + 1 then 0 else 1) + countRuns (b :: t)

/-- The closed intervals of the output pairs cover exactly the values of `l`. -/
def coversExactly (rs : List (Int × Int)) (l : List Int) : Prop :=
  ∀ x : Int, (∃ p ∈ rs, p.1 ≤ x ∧ x ≤ p.2) ↔ x ∈ l

/-- No two output pairs overlap or are mutually adjacent: each pair ends at
least two below the start of every later pair. -/
def separated (rs : List (Int × Int)) : Prop :=
  rs.Pairwise fun p q => p.2 + 1 < q.1

/-- The chunking of `bdfExport`'s token list into physical lines, 8 tokens per
line: the loop `for i in range(0, len(hmList) - chunkSize, chunkSize)` emits a
full chunk of 8 while more than 8 tokens remain, and the final `print` emits
whatever is left (0 to 8 tokens). -/
def chunks8 : List Token → List (List Token)
  | t1 :: t2 :: t3 :: t4 :: t5 :: t6 :: t7 :: t8 :: t9 :: rest =>
    [t1, t2, t3, t4, t5, t6, t7, t8] :: chunks8 (t9 :: rest)
  | l => [l]

/-- One physical line's text, `print(*chunk, sep=',')`: the tokens of one line joined by commas. -/
def joinTokens : List Token → String
  | [] => ""
  | [t] => Token.render t
  | t :: rest => Token.render t ++ "," ++ joinTokens rest

/-- Renders each chunk as a physical line: every line but the last gets the
trailing comma from `end=',\n'`; the final line does not. -/
def commaTerminate : List (List Token) → List String
  | [] => []
  | [c] => [joinTokens c]
  | c :: rest => (joinTokens c ++ ",") :: commaTerminate rest

/-- The physical lines holding one set's token list. -/
def wrapLines (ts : List Token) : List String := commaTerminate (chunks8 ts)

/-- Right-justification in a width-`w` field, as Python `'%5d'`/`'%8d'`. -/
def rjust (w : Nat) (s : String) : String :=
  String.mk (List.replicate (w - s.length) ' ') ++ s

/-- The lines emitted for one set: the `SET%5d = ` prefix printed with
`end=''` shares its physical line with the first token chunk; continuation
lines follow; last comes the `$HMSET %8d %8d "%s"` metadata line.
`wrapLines` never returns `[]`, so `headI`/`tail` select its first line and
the continuation lines. -/
def setLines (matId : Nat) (setType : Nat) (matName : String) (elems : List Int) :
    List String :=
  ("SET" ++ rjust 5 (Nat.repr matId) ++ " = " ++ (wrapLines (hmRanges elems)).headI)
    :: (wrapLines (hmRanges elems)).tail
    ++ ["$HMSET " ++ rjust 8 (Nat.repr matId) ++ " " ++ rjust 8 (Nat.repr setType)
        ++ " \"" ++ matName ++ "\""]

/-- Comparison used by `sorted(setDict.items())`: Python compares the tuples
componentwise, and since dict keys are distinct the comparison is decided by
the name alone.  Python compares strings lexicographically by code point,
which is the lexicographic order on the underlying character lists. -/
def keyLE (a b : String × List Int) : Prop := a.1.data ≤ b.1.data

/-- Strict version of `keyLE`, used to state uniqueness of the sorted order. -/
def keyLT (a b : String × List Int) : Prop := a.1.data < b.1.data

instance : DecidableRel keyLE := fun a b => inferInstanceAs (Decidable (a.1.data ≤ b.1.data))

instance : IsTotal (String × List Int) keyLE := ⟨fun a b => le_total a.1.data b.1.data⟩

instance : IsTrans (String × List Int) keyLE := ⟨fun _ _ _ h1 h2 => le_trans h1 h2⟩

instance : IsAntisymm (String × List Int) keyLT := ⟨fun _ _ h1 h2 => absurd h2 (lt_asymm h1)⟩

/-- The source's `sorted(setDict.items())`. -/
def sortPairs (setDict : List (String × List Int)) : List (String × List Int) :=
  List.insertionSort keyLE setDict

/-- The source's `enumerate(..., 1)`: pair each entry with its 1-based id. -/
def enumFrom1 {α : Type} : Nat → List α → List (Nat × α)
  | _, [] => []
  | i, a :: t => (i, a) :: enumFrom1 (i + 1) t

/-- The source's `bdfExport(bdf, setDict, setType)` (matGroups.py lines
88-120), as the list of physical lines written to `bdf`.  The diagnostic
`print(matName, len(elems), file=sys.stderr)` goes to a separate stream and is
not part of the document. -/
def bdfExport (setDict : List (String × List Int)) (setType : Nat) : List String :=
  "CEND" ::
    catMap (fun e => setLines e.1 setType e.2.1 e.2.2) (enumFrom1 1 (sortPairs setDict))
    ++ ["BEGIN BULK", "ENDDATA"]

/-- The document as a single byte string: each `print` ends its line with a
newline. -/
def bdfDocument (setDict : List (String × List Int)) (setType : Nat) : String :=
  String.join ((bdfExport setDict setType).map fun line => line ++ "\n")

/-! ### Arithmetic facts about sorted lists -/

theorem nth_eq_getElem (s : List Int) (i : Nat) (h : i < s.length) : nth s i = s[i] :=
  List.getD_eq_getElem s 0 h

theorem nth_succ_gap (s : List Int) (hs : List.Sorted (· < ·) s) (i : Nat)
    (h : i + 1 < s.length) : nth s i + 1 ≤ nth s (i + 1) := by
  have h1 : s[i] < s[i + 1] :=
    List.pairwise_iff_getElem.mp hs i (i + 1) (by omega) h (by omega)
  rw [nth_eq_getElem s i (by omega), nth_eq_getElem s (i + 1) h]
  omega

theorem nth_gap (s : List Int) (hs : List.Sorted (· < ·) s) :
    ∀ d i, i + d < s.length → (d : Int) ≤ nth s (i + d) - nth s i := by
  intro d
  induction d with
  | zero => intro i h; simp
  | succ d ih =>
    intro i h
    have h1 := ih i (by omega)
    have h2 := nth_succ_gap s hs (i + d) (by omega)
    have h3 : i + (d + 1) = (i + d) + 1 := by omega
    rw [h3]
    omega

/-- In a strictly sorted list, values grow at least as fast as indices. -/
theorem nth_mono_gap (s : List Int) (hs : List.Sorted (· < ·) s) (i j : Nat)
    (hij : i ≤ j) (hj : j < s.length) : ((j : Int) - (i : Int)) ≤ nth s j - nth s i := by
  have h1 := nth_gap s hs (j - i) i (by omega)
  have h2 : i + (j - i) = j := by omega
  rw [h2] at h1
  omega

/-! ### Partial correctness of the three loops of `ranges` -/

/-- What the innermost loop guarantees when it terminates: the final
`boundary` stays in range, is the original one or a failed midpoint, and the
final midpoint `(upper + b)/2` (the next value of `upper`) passed the
contiguity test. -/
theorem shrinkF_post (s : List Int) (upper : Nat) :
    ∀ fuel boundary b, upper < boundary →
      shrinkF s upper boundary fuel = some b →
      upper < b ∧ b ≤ boundary ∧
        (b = boundary ∨ nth s b - nth s upper > (b : Int) - (upper : Int)) ∧
        ¬(nth s ((upper + b) / 2) - nth s upper >
            (((upper + b) / 2 : Nat) : Int) - (upper : Int)) := by
  intro fuel
  induction fuel with
  | zero => intro boundary b _ h; simp [shrinkF] at h
  | succ fuel ih =>
    intro boundary b hub h
    simp only [shrinkF] at h
    split at h
    · rename_i hcond
      have hmid : upper < (upper + boundary) / 2 := by
        by_contra hx
        have he : (upper + boundary) / 2 = upper := by omega
        rw [he] at hcond
        omega
      obtain ⟨h1, h2, h3, h4⟩ := ih ((upper + boundary) / 2) b hmid h
      refine ⟨h1, by omega, ?_, h4⟩
      rcases h3 with rfl | h3
      · exact Or.inr hcond
      · exact Or.inr h3
    · rename_i hcond
      obtain rfl : boundary = b := by injection h
      exact ⟨hub, le_refl _, Or.inl rfl, hcond⟩

/-- What the middle loop guarantees when it terminates, relative to its entry
state: the result `r` is a contiguity-respecting index (`nth` grew no faster
than the index since `upper`), and the run cannot be extended past `r`. -/
theorem bsearchF_post (s : List Int) :
    ∀ fuel upper boundary r, upper < boundary →
      (boundary = s.length ∨
        nth s boundary - nth s upper > (boundary : Int) - (upper : Int)) →
      bsearchF s upper boundary fuel = some r →
      upper ≤ r ∧ r < boundary ∧
        nth s r - nth s upper ≤ (r : Int) - (upper : Int) ∧
        (r + 1 = s.length ∨ nth s (r + 1) - nth s r > 1) := by
  intro fuel
  induction fuel with
  | zero => intro u b r _ _ h; simp [bsearchF] at h
  | succ fuel ih =>
    intro upper boundary r hub hinv h
    simp only [bsearchF] at h
    split at h
    · rename_i hguard
      cases hs : shrinkF s upper boundary (fuel + 1) with
      | none => rw [hs] at h; simp at h
      | some b =>
        rw [hs] at h
        obtain ⟨hb1, hb2, hb3, hb4⟩ := shrinkF_post s upper (fuel + 1) boundary b hub hs
        have hmb : (upper + b) / 2 < b := by omega
        have hinv2 : b = s.length ∨
            nth s b - nth s ((upper + b) / 2) > (b : Int) - (((upper + b) / 2 : Nat) : Int) := by
          rcases hb3 with rfl | hb3
          · rcases hinv with h1 | h1
            · exact Or.inl h1
            · exact Or.inr (by omega)
          · exact Or.inr (by omega)
        obtain ⟨h1, h2, h3, h4⟩ := ih ((upper + b) / 2) b r hmb hinv2 h
        exact ⟨by omega, by omega, by omega, h4⟩
    · rename_i hguard
      obtain rfl : upper = r := by injection h
      have hb : boundary = upper + 1 := by omega
      refine ⟨le_refl _, hub, by omega, ?_⟩
      rcases hinv with h1 | h1
      · exact Or.inl (by omega)
      · rw [hb] at h1
        exact Or.inr (by push_cast at h1; omega)

/-! ### The fuel supplied by `ranges` always suffices -/

theorem shrinkF_total (s : List Int) (upper : Nat) :
    ∀ fuel boundary, upper < boundary → boundary - upper ≤ fuel →
      ∃ b, shrinkF s upper boundary fuel = some b := by
  intro fuel
  induction fuel with
  | zero => intro boundary h1 h2; exfalso; omega
  | succ fuel ih =>
    intro boundary h1 h2
    simp only [shrinkF]
    split
    · rename_i hcond
      have hmid : upper < (upper + boundary) / 2 := by
        by_contra hx
        have he : (upper + boundary) / 2 = upper := by omega
        rw [he] at hcond
        omega
      exact ih ((upper + boundary) / 2) hmid (by omega)
    · exact ⟨boundary, rfl⟩

theorem bsearchF_total (s : List Int) :
    ∀ fuel upper boundary, upper < boundary → boundary - upper ≤ fuel →
      ∃ r, bsearchF s upper boundary fuel = some r := by
  intro fuel
  induction fuel with
  | zero => intro u b h1 h2; exfalso; omega
  | succ fuel ih =>
    intro upper boundary h1 h2
    simp only [bsearchF]
    split
    · rename_i hguard
      obtain ⟨b, hb⟩ := shrinkF_total s upper (fuel + 1) boundary h1 (by omega)
      rw [hb]
      obtain ⟨h3, h4, -, -⟩ := shrinkF_post s upper (fuel + 1) boundary b h1 hb
      exact ih ((upper + b) / 2) b (by omega) (by omega)
    · exact ⟨upper, rfl⟩

theorem rangesFuel_total (s : List Int) :
    ∀ fuel lower, s.length - lower < fuel →
      ∃ r, rangesFuel s lower fuel = some r := by
  intro fuel
  induction fuel with
  | zero => intro lower h; exfalso; omega
  | succ fuel ih =>
    intro lower h
    simp only [rangesFuel]
    split
    · rename_i hl
      obtain ⟨u, hu⟩ := bsearchF_total s (fuel + 1) lower s.length hl (by omega)
      obtain ⟨h1, h2, -, -⟩ := bsearchF_post s (fuel + 1) lower s.length u hl (Or.inl rfl) hu
      obtain ⟨rest, hrest⟩ := ih (u + 1) (by omega)
      simp only [hu, hrest]
      exact ⟨_, rfl⟩
    · exact ⟨[], rfl⟩

/-! ### Membership, interval and run-counting lemmas -/

theorem mem_drop_iff (s : List Int) (k : Nat) (x : Int) :
    x ∈ s.drop k ↔ ∃ i, k ≤ i ∧ i < s.length ∧ nth s i = x := by
  rw [List.mem_iff_getElem]
  have hl : (s.drop k).length = s.length - k := List.length_drop ..
  constructor
  · rintro ⟨j, hj, rfl⟩
    refine ⟨k + j, by omega, by omega, ?_⟩
    rw [nth_eq_getElem s (k + j) (by omega)]
    exact (List.getElem_drop ..).symm
  · rintro ⟨i, hki, hi, rfl⟩
    have hik : k + (i - k) = i := by omega
    refine ⟨i - k, by omega, ?_⟩
    rw [List.getElem_drop, nth_eq_getElem s i hi]
    simp only [hik]

/-- In a strictly sorted list, a contiguous index interval holds exactly the
integers between its endpoint values. -/
theorem mem_interval (s : List Int) (hs : List.Sorted (· < ·) s) (lower u : Nat)
    (hlu : lower ≤ u) (hu : u < s.length)
    (hcontig : nth s u - nth s lower = (u : Int) - (lower : Int)) (x : Int) :
    (nth s lower ≤ x ∧ x ≤ nth s u) ↔ ∃ i, lower ≤ i ∧ i ≤ u ∧ nth s i = x := by
  constructor
  · rintro ⟨hx1, hx2⟩
    set t := (x - nth s lower).toNat with ht
    have htu : lower + t ≤ u := by omega
    refine ⟨lower + t, by omega, htu, ?_⟩
    have g1 := nth_mono_gap s hs lower (lower + t) (by omega) (by omega)
    have g2 := nth_mono_gap s hs (lower + t) u htu hu
    omega
  · rintro ⟨i, h1, h2, rfl⟩
    have g1 := nth_mono_gap s hs lower i h1 (by omega)
    have g2 := nth_mono_gap s hs i u h2 hu
    omega

theorem drop_cons_nth (s : List Int) (k : Nat) (h : k < s.length) :
    s.drop k = nth s k :: s.drop (k + 1) := by
  rw [nth_eq_getElem s k h]
  exact List.drop_eq_getElem_cons h

/-- Auxiliary induction for `countRuns_run`, with the run length explicit. -/
theorem countRuns_run_aux (s : List Int) (hs : List.Sorted (· < ·) s) :
    ∀ d lower, lower + d < s.length →
      nth s (lower + d) - nth s lower = (d : Int) →
      (lower + d + 1 = s.length ∨ nth s (lower + d + 1) - nth s (lower + d) > 1) →
      countRuns (s.drop lower) = 1 + countRuns (s.drop (lower + d + 1)) := by
  intro d
  induction d with
  | zero =>
    intro lower h hc hmax
    simp only [Nat.add_zero] at hmax ⊢
    rw [drop_cons_nth s lower (by omega)]
    by_cases hlen : lower + 1 < s.length
    · have hgap : nth s (lower + 1) - nth s lower > 1 := by
        rcases hmax with hend | hgap
        · omega
        · exact hgap
      rw [drop_cons_nth s (lower + 1) hlen]
      simp only [countRuns]
      rw [if_neg (by omega)]
    · rw [List.drop_eq_nil_of_le (by omega)]
      simp [countRuns]
  | succ d ih =>
    intro lower h hc hmax
    have hstep : nth s (lower + 1) = nth s lower + 1 := by
      have g1 := nth_mono_gap s hs lower (lower + 1) (by omega) (by omega)
      have g2 := nth_mono_gap s hs (lower + 1) (lower + (d + 1)) (by omega) (by omega)
      omega
    have hidx : lower + 1 + d = lower + (d + 1) := by omega
    have hres := ih (lower + 1) (by omega) (by rw [hidx]; omega) (by rw [hidx]; exact hmax)
    rw [drop_cons_nth s lower (by omega), drop_cons_nth s (lower + 1) (by omega)]
    simp only [countRuns]
    rw [if_pos (by omega)]
    rw [← drop_cons_nth s (lower + 1) (by omega), hres]
    have hidx2 : lower + 1 + d + 1 = lower + (d + 1) + 1 := by omega
    rw [hidx2]
    omega

/-- Dropping one maximal run from a sorted list removes exactly one counted
run. -/
theorem countRuns_run (s : List Int) (hs : List.Sorted (· < ·) s) (lower u : Nat)
    (hlu : lower ≤ u) (hu : u < s.length)
    (hcontig : nth s u - nth s lower = (u : Int) - (lower : Int))
    (hmax : u + 1 = s.length ∨ nth s (u + 1) - nth s u > 1) :
    countRuns (s.drop lower) = 1 + countRuns (s.drop (u + 1)) := by
  have hul : lower + (u - lower) = u := by omega
  have := countRuns_run_aux s hs (u - lower) lower (by omega)
    (by rw [hul]; omega) (by rw [hul]; exact hmax)
  rwa [hul] at this

/-! ### Full partial correctness of the outer loop -/

theorem rangesFuel_post (s : List Int) (hs : List.Sorted (· < ·) s) :
    ∀ fuel lower r, rangesFuel s lower fuel = some r →
      (∀ x : Int, (∃ p ∈ r, p.1 ≤ x ∧ x ≤ p.2) ↔ x ∈ s.drop lower)
      ∧ r.Pairwise (fun p q => p.2 + 1 < q.1)
      ∧ r.length = countRuns (s.drop lower)
      ∧ (∀ p ∈ r, p.1 ≤ p.2)
      ∧ (∀ p ∈ r, ∃ i, lower ≤ i ∧ i < s.length ∧ p.1 = nth s i) := by
  intro fuel
  induction fuel with
  | zero => intro lower r h; simp [rangesFuel] at h
  | succ fuel ih =>
    intro lower r h
    simp only [rangesFuel] at h
    split at h
    · rename_i hl
      cases hb : bsearchF s lower s.length (fuel + 1) with
      | none => simp [hb] at h
      | some u =>
        simp only [hb] at h
        cases hr0 : rangesFuel s (u + 1) fuel with
        | none => simp [hr0] at h
        | some rest =>
          simp only [hr0] at h
          obtain rfl : (nth s lower, nth s u) :: rest = r := by
            injection h
          obtain ⟨hu1, hu2, hu3, hu4⟩ :=
            bsearchF_post s (fuel + 1) lower s.length u hl (Or.inl rfl) hb
          have hcontig : nth s u - nth s lower = (u : Int) - (lower : Int) := by
            have := nth_mono_gap s hs lower u hu1 hu2
            omega
          obtain ⟨ihA, ihB, ihC, ihD, ihE⟩ := ih (u + 1) rest hr0
          have tailGap : ∀ q ∈ rest, nth s u + 1 < q.1 := by
            intro q hq
            obtain ⟨i, hi1, hi2, hqi⟩ := ihE q hq
            rcases hu4 with hend | hgap
            · omega
            · have := nth_mono_gap s hs (u + 1) i hi1 hi2
              rw [hqi]
              omega
          refine ⟨?_, ?_, ?_, ?_, ?_⟩
          · intro x
            rw [mem_drop_iff s lower x]
            constructor
            · rintro ⟨p, hp, hx1, hx2⟩
              rcases List.mem_cons.mp hp with rfl | hp2
              · obtain ⟨i, h1, h2, h3⟩ :=
                  (mem_interval s hs lower u hu1 hu2 hcontig x).mp ⟨hx1, hx2⟩
                exact ⟨i, h1, by omega, h3⟩
              · have hx : x ∈ s.drop (u + 1) := (ihA x).mp ⟨p, hp2, hx1, hx2⟩
                obtain ⟨i, h1, h2, h3⟩ := (mem_drop_iff s (u + 1) x).mp hx
                exact ⟨i, by omega, h2, h3⟩
            · rintro ⟨i, h1, h2, rfl⟩
              by_cases hi : i ≤ u
              · refine ⟨(nth s lower, nth s u), List.mem_cons_self _ _, ?_⟩
                exact (mem_interval s hs lower u hu1 hu2 hcontig (nth s i)).mpr
                  ⟨i, h1, hi, rfl⟩
              · have hx : nth s i ∈ s.drop (u + 1) :=
                  (mem_drop_iff s (u + 1) _).mpr ⟨i, by omega, h2, rfl⟩
                obtain ⟨p, hp, hx1, hx2⟩ := (ihA _).mpr hx
                exact ⟨p, List.mem_cons_of_mem _ hp, hx1, hx2⟩
          · exact List.Pairwise.cons tailGap ihB
          · rw [List.length_cons, ihC, countRuns_run s hs lower u hu1 hu2 hcontig hu4]
            omega
          · intro p hp
            rcases List.mem_cons.mp hp with rfl | hp2
            · simpa using by omega
            · exact ihD p hp2
          · intro p hp
            rcases List.mem_cons.mp hp with rfl | hp2
            · exact ⟨lower, le_refl _, hl, rfl⟩
            · obtain ⟨i, h1, h2, h3⟩ := ihE p hp2
              exact ⟨i, by omega, h2, h3⟩
    · rename_i hl
      obtain rfl : ([] : List (Int × Int)) = r := by injection h
      have hd : s.drop lower = [] := List.drop_eq_nil_of_le (by omega)
      refine ⟨?_, List.Pairwise.nil, ?_, ?_, ?_⟩
      · intro x
        rw [hd]
        simp
      · rw [hd]; rfl
      · intro p hp; simp at hp
      · intro p hp; simp at hp

/-- The computation of `ranges` is the terminating run of the source's loops:
the fuel it passes is enough, and `ranges` returns the loop's values. -/
theorem ranges_eq_some (l : List Int) :
    rangesFuel (sortInts l) 0 ((sortInts l).length + 1) = some (ranges l) := by
  obtain ⟨r, hr⟩ := rangesFuel_total (sortInts l) ((sortInts l).length + 1) 0 (by omega)
  unfold ranges
  rw [hr]
  rfl

/-! ### Sorting lemmas and the packaged specification of `ranges` -/

theorem sortInts_perm (l : List Int) : (sortInts l).Perm l :=
  List.perm_insertionSort _ l

theorem sortInts_sorted (l : List Int) : List.Sorted (· ≤ ·) (sortInts l) :=
  List.sorted_insertionSort _ l

theorem sortInts_sorted_lt (l : List Int) (h : l.Nodup) :
    List.Sorted (· < ·) (sortInts l) := by
  have h1 := sortInts_sorted l
  have h2 : (sortInts l).Nodup := ((sortInts_perm l).nodup_iff).mpr h
  exact (h1.and h2).imp fun hab => lt_of_le_of_ne hab.1 hab.2

/-- The key facts about `ranges` on a duplicate-free input list: exact
coverage of the input values, separation of the output pairs, one pair per
maximal contiguous run, and well-formed pairs. -/
theorem ranges_spec (l : List Int) (hnd : l.Nodup) :
    coversExactly (ranges l) l
    ∧ separated (ranges l)
    ∧ (ranges l).length = countRuns (sortInts l)
    ∧ (∀ p ∈ ranges l, p.1 ≤ p.2) := by
  have hs := sortInts_sorted_lt l hnd
  obtain ⟨hA, hB, hC, hD, -⟩ :=
    rangesFuel_post (sortInts l) hs ((sortInts l).length + 1) 0 (ranges l)
      (ranges_eq_some l)
  simp only [List.drop_zero] at hA hC
  refine ⟨?_, hB, hC, hD⟩
  intro x
  rw [hA x]
  exact (sortInts_perm l).mem_iff

/-! ### Token-expansion lemmas -/

theorem catMap_append {α β : Type} (f : α → List β) (l1 l2 : List α) :
    catMap f (l1 ++ l2) = catMap f l1 ++ catMap f l2 := by
  induction l1 with
  | nil => rfl
  | cons a t ih => simp [catMap, ih]

theorem mem_intsFromTo (lo hi x : Int) : x ∈ intsFromTo lo hi ↔ lo ≤ x ∧ x ≤ hi := by
  constructor
  · intro hx
    obtain ⟨k, hk, he⟩ := List.mem_map.mp hx
    rw [List.mem_range] at hk
    omega
  · rintro ⟨h1, h2⟩
    refine List.mem_map.mpr ⟨(x - lo).toNat, List.mem_range.mpr (by omega), ?_⟩
    show lo + ((x - lo).toNat : Int) = x
    omega

theorem mem_expandPair (lower upper x : Int) :
    x ∈ expandAll (if lower = upper then [Token.int lower]
      else if lower + 1 = upper then [Token.int lower, Token.int upper]
      else [Token.thru lower upper]) ↔ lower ≤ x ∧ x ≤ upper := by
  by_cases h1 : lower = upper
  · subst h1
    simp [expandAll, catMap, expandToken]
    omega
  · by_cases h2 : lower + 1 = upper
    · simp [h1, h2, expandAll, catMap, expandToken]
      omega
    · simp [h1, h2, expandAll, catMap, expandToken, mem_intsFromTo]

theorem mem_expandAll (rs : List (Int × Int)) (x : Int) :
    x ∈ expandAll (renderPairs rs) ↔ ∃ p ∈ rs, p.1 ≤ x ∧ x ≤ p.2 := by
  induction rs with
  | nil => simp [expandAll, renderPairs, catMap]
  | cons p rest ih =>
    obtain ⟨lower, upper⟩ := p
    have hsplit : expandAll (renderPairs ((lower, upper) :: rest))
        = expandAll (if lower = upper then [Token.int lower]
            else if lower + 1 = upper then [Token.int lower, Token.int upper]
            else [Token.thru lower upper]) ++ expandAll (renderPairs rest) := by
      simp only [renderPairs, expandAll, catMap_append]
    rw [hsplit, List.mem_append, mem_expandPair, ih]
    constructor
    · rintro (⟨hx1, hx2⟩ | ⟨p, hp, hx1, hx2⟩)
      · exact ⟨(lower, upper), List.mem_cons_self _ _, hx1, hx2⟩
      · exact ⟨p, List.mem_cons_of_mem _ hp, hx1, hx2⟩
    · rintro ⟨p, hp, hx1, hx2⟩
      rcases List.mem_cons.mp hp with rfl | hp2
      · exact Or.inl ⟨hx1, hx2⟩
      · exact Or.inr ⟨p, hp2, hx1, hx2⟩

/-! ### Claims about `ranges` and `hmRanges` -/

/-- Claim C1: for every non-empty duplicate-free list of integers, the pairs
produced by `ranges` cover exactly the input values, no two pairs overlap or
are mutually adjacent, the number of pairs equals the number of maximal
contiguous runs in the sorted distinct values, and the compression of
[10,11,12,1,2,3,4,17,18,20] is [(1,4),(10,12),(17,18),(20,20)]. -/
theorem claim1_range_compression (l : List Int) (_hne : l ≠ []) (hnd : l.Nodup) :
    coversExactly (ranges l) l
    ∧ separated (ranges l)
    ∧ (ranges l).length = countRuns (sortInts l)
    ∧ ranges [10, 11, 12, 1, 2, 3, 4, 17, 18, 20] =
        [(1, 4), (10, 12), (17, 18), (20, 20)] := by
  obtain ⟨h1, h2, h3, -⟩ := ranges_spec l hnd
  exact ⟨h1, h2, h3, by decide⟩

/-- Witness for C1 at the concrete input [3, 5, 4, 9]. -/
theorem claim1_range_compression_witness :
    (([3, 5, 4, 9] : List Int) ≠ [] ∧ ([3, 5, 4, 9] : List Int).Nodup)
    ∧ (coversExactly (ranges [3, 5, 4, 9]) [3, 5, 4, 9]
       ∧ separated (ranges [3, 5, 4, 9])
       ∧ (ranges [3, 5, 4, 9]).length = countRuns (sortInts [3, 5, 4, 9])
       ∧ ranges [10, 11, 12, 1, 2, 3, 4, 17, 18, 20] =
           [(1, 4), (10, 12), (17, 18), (20, 20)]) :=
  ⟨⟨by decide, by decide⟩, claim1_range_compression [3, 5, 4, 9] (by decide) (by decide)⟩

/-- Claim C2 is violated by the code: on the input [1,3,3,4] the duplicate 3
makes the index-distance contiguity test succeed across the gap, so `ranges`
returns [(1,4)] instead of the deduplicated result [(1,1),(3,4)], and the
value 2, which is not in the input, is covered. -/
theorem claim2_duplicates_bug :
    ranges [1, 3, 3, 4] = [(1, 4)]
    ∧ ranges [1, 3, 4] = [(1, 1), (3, 4)]
    ∧ ranges [1, 3, 3, 4] ≠ ranges [1, 3, 4]
    ∧ (∃ p ∈ ranges [1, 3, 3, 4], p.1 ≤ 2 ∧ (2 : Int) ≤ p.2)
    ∧ (2 : Int) ∉ ([1, 3, 3, 4] : List Int) := by decide

/-- Claim C9: for every input list the nested loops of `ranges` terminate:
fuel `length + 1` is enough for the computation to complete, so the fuelled
embedding reaches `some` and `ranges` returns its value. -/
theorem claim9_termination (l : List Int) :
    rangesFuel (sortInts l) 0 ((sortInts l).length + 1) = some (ranges l) :=
  ranges_eq_some l

theorem renderPairs_eq_catMap (rs : List (Int × Int)) :
    renderPairs rs = catMap (fun p =>
      if p.1 = p.2 then [Token.int p.1]
      else if p.1 + 1 = p.2 then [Token.int p.1, Token.int p.2]
      else [Token.thru p.1 p.2]) rs := by
  induction rs with
  | nil => rfl
  | cons p rest ih =>
    obtain ⟨lower, upper⟩ := p
    simp only [renderPairs, catMap, ih]

/-- Claim C5: `hmRanges` renders each pair produced by the compression as a
single integer token when lower = upper, as two separate integer tokens when
upper = lower + 1, and as a composite THRU token otherwise. -/
theorem claim5_token_rendering (l : List Int) :
    hmRanges l = catMap (fun p =>
      if p.1 = p.2 then [Token.int p.1]
      else if p.1 + 1 = p.2 then [Token.int p.1, Token.int p.2]
      else [Token.thru p.1 p.2]) (ranges l) :=
  renderPairs_eq_catMap (ranges l)

/-- Claim C6: expanding the rendered token list back into integers (THRU
tokens to their inclusive ranges, integer tokens to themselves) reproduces
exactly the distinct values of the input. -/
theorem claim6_roundtrip (l : List Int) (hnd : l.Nodup) :
    ∀ x : Int, x ∈ expandAll (hmRanges l) ↔ x ∈ l := by
  intro x
  rw [hmRanges, mem_expandAll]
  exact (ranges_spec l hnd).1 x

/-- Witness for C6 at the concrete input [5, 3] and value 4. -/
theorem claim6_roundtrip_witness :
    ([5, 3] : List Int).Nodup
    ∧ ((4 : Int) ∈ expandAll (hmRanges [5, 3]) ↔ (4 : Int) ∈ ([5, 3] : List Int)) :=
  ⟨by decide, claim6_roundtrip [5, 3] (by decide) 4⟩

/-- Claim C3 counterexample: the claimed token list (which lists 10, 11, 12
separately) is not what `hmRanges` produces for this input. -/
theorem claim3_counterexample :
    hmRanges [10, 11, 12, 1, 2, 3, 4, 17, 18, 20] ≠
      [Token.thru 1 4, Token.int 10, Token.int 11, Token.int 12,
       Token.int 17, Token.int 18, Token.int 20] := by decide

/-- Claim C3 amended: the display tokens for that input are exactly
['1 THRU 4', '10 THRU 12', 17, 18, 20], as in the source's doctest. -/
theorem claim3_amended :
    hmRanges [10, 11, 12, 1, 2, 3, 4, 17, 18, 20] =
      [Token.thru 1 4, Token.thru 10 12, Token.int 17, Token.int 18, Token.int 20] := by
  decide

/-! ### Chunking and line-termination lemmas for the `.bdf` writer -/

theorem chunks8_ne_nil (ts : List Token) : chunks8 ts ≠ [] := by
  unfold chunks8
  split <;> simp

/-- Shape analysis of `chunks8`: a list of at most 8 tokens is one chunk, a
longer list contributes a full chunk of 8 and recurses. -/
theorem chunks8_cases : ∀ ts : List Token,
    (ts.length ≤ 8 ∧ chunks8 ts = [ts]) ∨
    (8 < ts.length ∧ chunks8 ts = ts.take 8 :: chunks8 (ts.drop 8))
  | [] => Or.inl ⟨by simp, rfl⟩
  | [t1] => Or.inl ⟨by simp, rfl⟩
  | [t1, t2] => Or.inl ⟨by simp, rfl⟩
  | [t1, t2, t3] => Or.inl ⟨by simp, rfl⟩
  | [t1, t2, t3, t4] => Or.inl ⟨by simp, rfl⟩
  | [t1, t2, t3, t4, t5] => Or.inl ⟨by simp, rfl⟩
  | [t1, t2, t3, t4, t5, t6] => Or.inl ⟨by simp, rfl⟩
  | [t1, t2, t3, t4, t5, t6, t7] => Or.inl ⟨by simp, rfl⟩
  | [t1, t2, t3, t4, t5, t6, t7, t8] => Or.inl ⟨by simp, rfl⟩
  | t1 :: t2 :: t3 :: t4 :: t5 :: t6 :: t7 :: t8 :: t9 :: rest =>
      Or.inr ⟨by simp only [List.length_cons]; omega, rfl⟩

theorem chunks8_length : ∀ ts : List Token, ts ≠ [] →
    (chunks8 ts).length = (ts.length + 7) / 8
  | ts, h => by
    rcases chunks8_cases ts with ⟨h1, h2⟩ | ⟨h1, h2⟩
    · rw [h2]
      have h3 : ts.length ≠ 0 := fun hx => h (List.length_eq_zero.mp hx)
      simp only [List.length_cons, List.length_nil]
      omega
    · have hd : (ts.drop 8).length = ts.length - 8 := List.length_drop ..
      have hne2 : ts.drop 8 ≠ [] := by
        intro hx
        rw [hx] at hd
        simp only [List.length_nil] at hd
        omega
      rw [h2, List.length_cons, chunks8_length (ts.drop 8) hne2, hd]
      omega
  termination_by ts => ts.length
  decreasing_by simp only [List.length_drop]; omega

theorem chunks8_chunk_full : ∀ ts : List Token, ∀ c ∈ (chunks8 ts).dropLast, c.length = 8
  | ts => by
    rcases chunks8_cases ts with ⟨h1, h2⟩ | ⟨h1, h2⟩
    · rw [h2]
      intro c hc
      simp at hc
    · rw [h2]
      intro c hc
      rw [List.dropLast_cons_of_ne_nil (chunks8_ne_nil _)] at hc
      rcases List.mem_cons.mp hc with rfl | hc2
      · rw [List.length_take]
        omega
      · exact chunks8_chunk_full (ts.drop 8) c hc2
  termination_by ts => ts.length
  decreasing_by
    show (List.drop 8 ts).length < ts.length
    simp only [List.length_drop]
    omega

theorem commaTerminate_length : ∀ cs : List (List Token),
    (commaTerminate cs).length = cs.length
  | [] => rfl
  | [c] => rfl
  | c :: c2 :: rest => by
      simp only [commaTerminate, List.length_cons, commaTerminate_length (c2 :: rest)]

/-- Every line but the last of a rendered chunk list is a joined chunk with a
trailing comma. -/
theorem commaTerminate_dropLast : ∀ cs : List (List Token),
    ∀ line ∈ (commaTerminate cs).dropLast, ∃ c ∈ cs, line = joinTokens c ++ ","
  | [] => by simp [commaTerminate]
  | [c] => by simp [commaTerminate]
  | c :: c2 :: rest => by
      intro line hl
      have hne : commaTerminate (c2 :: rest) ≠ [] := by
        cases rest <;> simp [commaTerminate]
      rw [show commaTerminate (c :: c2 :: rest)
            = (joinTokens c ++ ",") :: commaTerminate (c2 :: rest) from rfl] at hl
      rw [List.dropLast_cons_of_ne_nil hne] at hl
      rcases List.mem_cons.mp hl with rfl | h2
      · exact ⟨c, List.mem_cons_self _ _, rfl⟩
      · obtain ⟨c3, hc3, he⟩ := commaTerminate_dropLast (c2 :: rest) line h2
        exact ⟨c3, List.mem_cons_of_mem _ hc3, he⟩

/-- The last line of a rendered chunk list is a joined chunk with no comma
appended. -/
theorem commaTerminate_getLast : ∀ cs : List (List Token), cs ≠ [] →
    ∃ c ∈ cs, (commaTerminate cs).getLast? = some (joinTokens c)
  | [], h => absurd rfl h
  | [c], _ => ⟨c, List.mem_cons_self _ _, rfl⟩
  | c :: c2 :: rest, _ => by
      obtain ⟨c3, hc3, he⟩ := commaTerminate_getLast (c2 :: rest) (by simp)
      refine ⟨c3, List.mem_cons_of_mem _ hc3, ?_⟩
      have hne : commaTerminate (c2 :: rest) ≠ [] := by
        cases rest <;> simp [commaTerminate]
      rw [show commaTerminate (c :: c2 :: rest)
            = (joinTokens c ++ ",") :: commaTerminate (c2 :: rest) from rfl]
      cases hcc : commaTerminate (c2 :: rest) with
      | nil => exact absurd hcc hne
      | cons x xs =>
          rw [List.getLast?_cons_cons]
          rw [hcc] at he
          exact he

/-! ### The joined token text never ends in a comma -/

theorem toDigitsCore_getLast_concat :
    ∀ (fuel n : Nat) (ds : List Char) (c : Char),
      (Nat.toDigitsCore 10 fuel n (ds ++ [c])).getLast? = some c
  | 0, _, ds, c => List.getLast?_concat _
  | fuel + 1, n, ds, c => by
      simp only [Nat.toDigitsCore]
      split
      · rw [← List.cons_append]
        exact List.getLast?_concat _
      · rw [← List.cons_append]
        exact toDigitsCore_getLast_concat fuel (n / 10) (Nat.digitChar (n % 10) :: ds) c

theorem toDigits_getLast (n : Nat) :
    (Nat.toDigits 10 n).getLast? = some (Nat.digitChar (n % 10)) := by
  unfold Nat.toDigits
  simp only [Nat.toDigitsCore]
  split
  · rfl
  · have h := toDigitsCore_getLast_concat n (n / 10) [] (Nat.digitChar (n % 10))
    simpa using h

theorem digitChar_ne_comma (k : Nat) (h : k < 10) : Nat.digitChar k ≠ ',' := by
  interval_cases k <;> decide

theorem natRepr_getLast (n : Nat) :
    (Nat.repr n).data.getLast? = some (Nat.digitChar (n % 10)) :=
  toDigits_getLast n

theorem getLast_some_ne_nil {α : Type} {l : List α} {c : α}
    (h : l.getLast? = some c) : l ≠ [] := by
  intro hl
  rw [hl] at h
  simp at h

/-- Python renders an integer as a minus sign and digits; the final character
is always a digit, never a comma. -/
theorem intRepr_getLast (n : Int) :
    ∃ c, (Int.repr n).data.getLast? = some c ∧ c ≠ ',' := by
  cases n with
  | ofNat m =>
      exact ⟨Nat.digitChar (m % 10), natRepr_getLast m,
        digitChar_ne_comma (m % 10) (by omega)⟩
  | negSucc m =>
      refine ⟨Nat.digitChar ((m + 1) % 10), ?_, digitChar_ne_comma _ (by omega)⟩
      show (("-" ++ Nat.repr (m + 1)).data).getLast? = _
      rw [String.data_append]
      rw [List.getLast?_append_of_ne_nil _ (getLast_some_ne_nil (natRepr_getLast (m + 1)))]
      exact natRepr_getLast (m + 1)

theorem render_getLast (t : Token) :
    ∃ c, (Token.render t).data.getLast? = some c ∧ c ≠ ',' := by
  cases t with
  | int n => exact intRepr_getLast n
  | thru lo hi =>
      obtain ⟨c, hc, hne⟩ := intRepr_getLast hi
      refine ⟨c, ?_, hne⟩
      show ((lo.repr ++ " THRU " ++ hi.repr).data).getLast? = some c
      rw [String.data_append]
      rw [List.getLast?_append_of_ne_nil _ (getLast_some_ne_nil hc)]
      exact hc

theorem joinTokens_getLast : ∀ ts : List Token, ts ≠ [] →
    ∃ c, (joinTokens ts).data.getLast? = some c ∧ c ≠ ','
  | [], h => absurd rfl h
  | [t], _ => render_getLast t
  | t :: t2 :: rest, _ => by
      obtain ⟨c, hc, hne⟩ := joinTokens_getLast (t2 :: rest) (by simp)
      refine ⟨c, ?_, hne⟩
      show ((Token.render t ++ "," ++ joinTokens (t2 :: rest)).data).getLast? = some c
      rw [String.data_append]
      rw [List.getLast?_append_of_ne_nil _ (getLast_some_ne_nil hc)]
      exact hc

theorem wrapLines_ne_nil (ts : List Token) : wrapLines ts ≠ [] := by
  intro h
  have h1 := commaTerminate_length (chunks8 ts)
  rw [show commaTerminate (chunks8 ts) = wrapLines ts from rfl, h] at h1
  exact chunks8_ne_nil ts (List.length_eq_zero.mp h1.symm)

/-- One set's record in the document is its wrapped token lines (the first
sharing a physical line with the `SET` prefix) plus one metadata line. -/
theorem setLines_length (matId setType : Nat) (matName : String) (elems : List Int) :
    (setLines matId setType matName elems).length =
      (wrapLines (hmRanges elems)).length + 1 := by
  have h1 : (wrapLines (hmRanges elems)).tail.length =
      (wrapLines (hmRanges elems)).length - 1 := List.length_tail _
  have h2 : (wrapLines (hmRanges elems)).length ≠ 0 :=
    fun hx => wrapLines_ne_nil _ (List.length_eq_zero.mp hx)
  simp only [setLines, List.length_cons, List.length_append, h1, List.length_cons,
    List.length_nil]
  omega

theorem wrapLines_wrapped (ts : List Token) :
    ∀ line ∈ (wrapLines ts).dropLast, line.data.getLast? = some ',' := by
  intro line hl
  obtain ⟨c, _, he⟩ := commaTerminate_dropLast (chunks8 ts) line hl
  rw [he, String.data_append]
  exact List.getLast?_concat _

theorem wrapLines_lastLine (ts : List Token) :
    ∀ line, (wrapLines ts).getLast? = some line → line.data.getLast? ≠ some ',' := by
  intro line hl
  obtain ⟨c, _, he⟩ := commaTerminate_getLast (chunks8 ts) (chunks8_ne_nil ts)
  rw [wrapLines] at hl
  rw [he] at hl
  obtain rfl : joinTokens c = line := by injection hl
  cases c with
  | nil => simp [joinTokens]
  | cons t rest =>
      obtain ⟨c2, hc2, hne⟩ := joinTokens_getLast (t :: rest) (by simp)
      rw [hc2]
      intro hx
      exact hne (by injection hx)

/-! ### Claims about the `.bdf` formatting -/

/-- Claim C4 counterexample: a set with zero tokens still occupies one
physical line (the bare record line), not ceil(0/8) = 0 lines. -/
theorem claim4_counterexample :
    ¬ (wrapLines (hmRanges [])).length = ((hmRanges []).length + 7) / 8 := by decide

/-- Claim C4 amended: for a token list with K >= 1 tokens the record occupies
exactly ceil(K/8) physical lines, every chunk except the last holds exactly 8
tokens, every line except the last ends with a trailing comma, and the final
line does not end with a comma; a set with zero tokens still occupies one
(empty) line. -/
theorem claim4_amended (ts : List Token) (h : ts ≠ []) :
    (wrapLines ts).length = (ts.length + 7) / 8
    ∧ (∀ c ∈ (chunks8 ts).dropLast, c.length = 8)
    ∧ (∀ line ∈ (wrapLines ts).dropLast, line.data.getLast? = some ',')
    ∧ (∀ line, (wrapLines ts).getLast? = some line → line.data.getLast? ≠ some ',')
    ∧ (∀ (matId setType : Nat) (matName : String) (elems : List Int),
        (setLines matId setType matName elems).length =
          (wrapLines (hmRanges elems)).length + 1)
    ∧ wrapLines ([] : List Token) = [""] := by
  refine ⟨?_, chunks8_chunk_full ts, wrapLines_wrapped ts, wrapLines_lastLine ts,
    setLines_length, by decide⟩
  rw [wrapLines, commaTerminate_length, chunks8_length ts h]

/-- Witness for C4 at a concrete list of 9 tokens (2 lines: 8 + 1). -/
theorem claim4_amended_witness :
    ([Token.int 1, Token.int 2, Token.int 3, Token.int 4, Token.int 5,
      Token.int 6, Token.int 7, Token.int 8, Token.int 9] ≠ ([] : List Token))
    ∧ ((wrapLines [Token.int 1, Token.int 2, Token.int 3, Token.int 4, Token.int 5,
          Token.int 6, Token.int 7, Token.int 8, Token.int 9]).length =
        (([Token.int 1, Token.int 2, Token.int 3, Token.int 4, Token.int 5,
          Token.int 6, Token.int 7, Token.int 8, Token.int 9] : List Token).length + 7) / 8
       ∧ (∀ c ∈ (chunks8 [Token.int 1, Token.int 2, Token.int 3, Token.int 4, Token.int 5,
            Token.int 6, Token.int 7, Token.int 8, Token.int 9]).dropLast, c.length = 8)
       ∧ (∀ line ∈ (wrapLines [Token.int 1, Token.int 2, Token.int 3, Token.int 4,
            Token.int 5, Token.int 6, Token.int 7, Token.int 8,
            Token.int 9]).dropLast, line.data.getLast? = some ',')
       ∧ (∀ line, (wrapLines [Token.int 1, Token.int 2, Token.int 3, Token.int 4,
            Token.int 5, Token.int 6, Token.int 7, Token.int 8,
            Token.int 9]).getLast? = some line → line.data.getLast? ≠ some ',')
       ∧ (∀ (matId setType : Nat) (matName : String) (elems : List Int),
           (setLines matId setType matName elems).length =
             (wrapLines (hmRanges elems)).length + 1)
       ∧ wrapLines ([] : List Token) = [""]) :=
  ⟨by decide, claim4_amended _ (by decide)⟩

/-- Claim C8: compression of the empty collection is empty, and a mapping
with one empty set still gets a record: a bare `SET    1 = ` line followed by
its metadata line. -/
theorem claim8_empty :
    ranges [] = []
    ∧ bdfExport [("EMPTY", [])] 2 =
        ["CEND", "SET    1 = ", "$HMSET        1        2 \"EMPTY\"",
         "BEGIN BULK", "ENDDATA"] := by decide

/-- Claim C10: every document starts with the single header line CEND and
ends with the trailer lines BEGIN BULK and ENDDATA; the empty mapping gives
exactly those three lines. -/
theorem claim10_document (setDict : List (String × List Int)) (setType : Nat) :
    (∃ body, bdfExport setDict setType = "CEND" :: (body ++ ["BEGIN BULK", "ENDDATA"]))
    ∧ bdfExport [] setType = ["CEND", "BEGIN BULK", "ENDDATA"] :=
  ⟨⟨_, rfl⟩, rfl⟩

/-! ### Determinism of the document -/

theorem stringExt (a b : String) (h : a.data = b.data) : a = b := by
  cases a
  cases b
  exact congrArg String.mk h

theorem sortPairs_perm (sd : List (String × List Int)) : (sortPairs sd).Perm sd :=
  List.perm_insertionSort _ sd

theorem sortPairs_sorted (sd : List (String × List Int)) :
    (sortPairs sd).Pairwise keyLE :=
  List.sorted_insertionSort _ sd

theorem sortPairs_sorted_lt (sd : List (String × List Int))
    (h : (sd.map Prod.fst).Nodup) : (sortPairs sd).Pairwise keyLT := by
  have h1 := sortPairs_sorted sd
  have h2 : ((sortPairs sd).map Prod.fst).Nodup :=
    (((sortPairs_perm sd).map Prod.fst).nodup_iff).mpr h
  have h3 : (sortPairs sd).Pairwise fun a b => a.1 ≠ b.1 := List.pairwise_map.mp h2
  exact (h1.and h3).imp fun hab =>
    lt_of_le_of_ne hab.1 fun he => hab.2 (stringExt _ _ he)

/-- Two mappings with the same entries (same distinct names) sort to the same
list, whatever their insertion order. -/
theorem sortPairs_eq_of_perm (sd1 sd2 : List (String × List Int))
    (h : (sd1.map Prod.fst).Nodup) (hp : sd1.Perm sd2) :
    sortPairs sd1 = sortPairs sd2 := by
  have hperm : (sortPairs sd1).Perm (sortPairs sd2) :=
    (sortPairs_perm sd1).trans (hp.trans (sortPairs_perm sd2).symm)
  have h2 : (sd2.map Prod.fst).Nodup := ((hp.map Prod.fst).nodup_iff).mp h
  exact List.eq_of_perm_of_sorted hperm (sortPairs_sorted_lt sd1 h)
    (sortPairs_sorted_lt sd2 h2)

theorem enumFrom1_map_fst {α : Type} :
    ∀ (n : Nat) (l : List α), (enumFrom1 n l).map Prod.fst = List.range' n l.length
  | _, [] => rfl
  | n, a :: t => by
      simp only [enumFrom1, List.map_cons, List.length_cons,
        enumFrom1_map_fst (n + 1) t, List.range'_succ]

/-- Claim C7: `bdfExport` is deterministic: permuting the input mapping does
not change the document, the sequence ids are 1..N, and they are assigned in
strictly ascending lexicographic order of the set names. -/
theorem claim7_determinism (sd1 sd2 : List (String × List Int)) (setType : Nat)
    (hnd : (sd1.map Prod.fst).Nodup) (hp : sd1.Perm sd2) :
    bdfDocument sd1 setType = bdfDocument sd2 setType
    ∧ (enumFrom1 1 (sortPairs sd1)).map Prod.fst = List.range' 1 sd1.length
    ∧ List.Sorted (· < ·) ((sortPairs sd1).map Prod.fst) := by
  have hkey := sortPairs_eq_of_perm sd1 sd2 hnd hp
  refine ⟨?_, ?_, ?_⟩
  · unfold bdfDocument bdfExport
    rw [hkey]
  · rw [enumFrom1_map_fst, (sortPairs_perm sd1).length_eq]
  · have h1 := sortPairs_sorted_lt sd1 hnd
    exact List.pairwise_map.mpr (h1.imp fun hab => String.lt_iff_toList_lt.mpr hab)

/-- Witness for C7 at a concrete two-entry mapping and its transposition. -/
theorem claim7_determinism_witness :
    ((([("B", [1]), ("A", [2])] : List (String × List Int)).map Prod.fst).Nodup
      ∧ ([("B", [1]), ("A", [2])] : List (String × List Int)).Perm [("A", [2]), ("B", [1])])
    ∧ (bdfDocument [("B", [1]), ("A", [2])] 2 = bdfDocument [("A", [2]), ("B", [1])] 2
       ∧ (enumFrom1 1 (sortPairs [("B", [1]), ("A", [2])])).map Prod.fst =
           List.range' 1 ([("B", [1]), ("A", [2])] : List (String × List Int)).length
       ∧ List.Sorted (· < ·) ((sortPairs [("B", [1]), ("A", [2])]).map Prod.fst)) :=
  ⟨⟨by decide, List.Perm.swap _ _ _⟩,
    claim7_determinism _ _ 2 (by decide) (List.Perm.swap _ _ _)⟩

/-- Sanity check: the doctest of `ranges` in the source. -/
theorem ranges_doctest :
    ranges [10, 11, 12, 1, 2, 3, 4, 17, 18, 20] =
      [(1, 4), (10, 12), (17, 18), (20, 20)] := by decide

/-- Sanity check: the doctest of `hmRanges` in the source. -/
theorem hmRanges_doctest :
    hmRanges [10, 11, 12, 1, 2, 3, 4, 17, 18, 20] =
      [Token.thru 1 4, Token.thru 10 12, Token.int 17, Token.int 18, Token.int 20] := by
  decide

/-- Sanity check: the doctest of `bdfExport` in the source, line by line. -/
theorem bdfExport_doctest :
    bdfExport [("SET_A", [10, 11, 12, 1, 2, 3, 4, 17, 18, 20]),
               ("SET_B", [2, 4, 6, 8, 10, 12, 14, 16, 18, 20])] 2 =
      ["CEND",
       "SET    1 = 1 THRU 4,10 THRU 12,17,18,20",
       "$HMSET        1        2 \"SET_A\"",
       "SET    2 = 2,4,6,8,10,12,14,16,",
       "18,20",
       "$HMSET        2        2 \"SET_B\"",
       "BEGIN BULK",
       "ENDDATA"] := by decide

end MatGroups
